import Mathlib

/-!
Verification development for the BigQuery export pipeline
(`custom_components/bigquery_export`).

The definitions below are shallow embeddings of the Python source:

* `utils.py` : `should_export_entity`, `sanitize_attributes` (glob matching
  via Python's `fnmatch.fnmatch`);
* `services.py` : the per-row filter decision of `_export_data_range` /
  `_bulk_export_via_file`, `extract_room_from_entity`, the strategy
  selection of `_export_data_range`, the chunk loop of
  `_export_with_chunking`, and the MERGE statement shared by
  `_insert_batch` and `_bulk_export_via_file`;
* `coordinator.py` : the single-flight / rate-limit guard of
  `async_manual_export`.

Python dictionaries are modelled as association lists, timestamps as
natural or integer numbers of seconds, and column payloads whose values
never influence control flow as opaque `Option String` fields.
-/

namespace BigQueryExport

/-! ### Glob matching (Python `fnmatch.fnmatch`, POSIX case rules)

`fnmatch.fnmatch` on POSIX applies `os.path.normcase` (the identity) and
then matches with `*` (any sequence), `?` (any single character) and
`[...]` character classes (`!` negation, `-` ranges, a leading `]` is a
literal member, an unterminated `[` matches a literal `[`). -/

/-- One element of a glob character class: a single character or an
inclusive range such as `a-z`. -/
inductive ClassItem
  | single (c : Char)
  | range (lo hi : Char)
deriving DecidableEq, Repr

/-- Collect the raw characters of a `[...]` class body up to the closing
`]`, returning the body and the remaining pattern, or `none` when the
class is unterminated. -/
def splitClass (acc : List Char) : List Char → Option (List Char × List Char)
  | [] => none
  | ']' :: rest => some (acc.reverse, rest)
  | c :: rest => splitClass (c :: acc) rest

/-- Interpret `-` ranges inside a class body. -/
def classItems : List Char → List ClassItem
  | [] => []
  | a :: '-' :: b :: rest => ClassItem.range a b :: classItems rest
  | a :: rest => ClassItem.single a :: classItems rest

/-- Parse a class directly after an opening `[`: an optional leading `!`
negates, a `]` right after that is a literal member. -/
def parseClass (ps : List Char) : Option (Bool × List ClassItem × List Char) :=
  let (neg, body) :=
    match ps with
    | '!' :: rest => (true, rest)
    | _ => (false, ps)
  let scanned :=
    match body with
    | ']' :: rest => splitClass [']'] rest
    | _ => splitClass [] body
  match scanned with
  | some (raw, rest) => some (neg, classItems raw, rest)
  | none => none

/-- Does character `c` belong to the (possibly negated) class? -/
def matchClass (neg : Bool) (items : List ClassItem) (c : Char) : Bool :=
  let hit := items.any fun it =>
    match it with
    | ClassItem.single a => a == c
    | ClassItem.range lo hi => decide (lo ≤ c) && decide (c ≤ hi)
  if neg then !hit else hit

/-- Fuel-indexed glob matcher; every step consumes at least one character
of the pattern or of the name, so `pattern.length + name.length + 1` fuel
is always enough. -/
def globMatchFuel : Nat → List Char → List Char → Bool
  | 0, _, _ => false
  | _ + 1, [], name => name.isEmpty
  | fuel + 1, '*' :: ps, name =>
    globMatchFuel fuel ps name ||
      (match name with
       | [] => false
       | _ :: cs => globMatchFuel fuel ('*' :: ps) cs)
  | fuel + 1, '?' :: ps, name =>
    (match name with
     | [] => false
     | _ :: cs => globMatchFuel fuel ps cs)
  | fuel + 1, '[' :: ps, name =>
    (match parseClass ps with
     | some (neg, items, rest) =>
       (match name with
        | [] => false
        | c :: cs => matchClass neg items c && globMatchFuel fuel rest cs)
     | none =>
       (match name with
        | [] => false
        | c :: cs => (c == '[') && globMatchFuel fuel ps cs))
  | fuel + 1, p :: ps, name =>
    (match name with
     | [] => false
     | c :: cs => p == c && globMatchFuel fuel ps cs)

/-- `fnmatch name glob`: Python's `fnmatch.fnmatch(name, pattern)`. -/
def fnmatch (name glob : String) : Bool :=
  globMatchFuel (glob.length + name.length + 1) glob.data name.data

/-! ### `utils.should_export_entity` and `utils.sanitize_attributes` -/

/-- `utils.should_export_entity`: with no configured patterns nothing is
exported, otherwise the entity is exported when any glob pattern matches. -/
def should_export_entity (entity_id : String) (allowed_entities : List String) : Bool :=
  if allowed_entities.isEmpty then false
  else allowed_entities.any fun pat => fnmatch entity_id pat

/-- `utils.sanitize_attributes`: for every configured entity pattern that
matches `entity_id`, drop every attribute name listed under it.  The
Python dict is modelled as an association list; `dict.pop` becomes a
filter on the key. -/
def sanitize_attributes {α : Type} (entity_id : String)
    (attributes : List (String × α))
    (denied_attributes : List (String × List String)) : List (String × α) :=
  if attributes.isEmpty || denied_attributes.isEmpty then attributes
  else
    denied_attributes.foldl
      (fun sanitized pd =>
        if fnmatch entity_id pd.1 then
          pd.2.foldl (fun acc attr => acc.filter fun kv => kv.1 != attr) sanitized
        else sanitized)
      attributes

/-- A key is denied for an entity when some configured pattern matches the
entity and lists that key. -/
def deniedKey (entity_id k : String) (denied_attributes : List (String × List String)) : Prop :=
  ∃ pd ∈ denied_attributes, fnmatch entity_id pd.1 = true ∧ k ∈ pd.2

instance (entity_id k : String) (denied_attributes : List (String × List String)) :
    Decidable (deniedKey entity_id k denied_attributes) := by
  unfold deniedKey; infer_instance

/-! ### The per-row export decision of `_export_data_range` /
`_bulk_export_via_file` (services.py) -/

/-- `const.FILTERING_MODE_INCLUDE`. -/
def FILTERING_MODE_INCLUDE : String := "include"

/-- `const.FILTERING_MODE_EXCLUDE`. -/
def FILTERING_MODE_EXCLUDE : String := "exclude"

/-- The filtering block applied to each row in `_export_data_range` and
`_bulk_export_via_file`: include mode consults the allow-list, any other
mode starts from `True` and turns the same list into exclusion patterns. -/
def export_decision (filtering_mode : String) (allowed_entities : List String)
    (entity_id : String) : Bool :=
  if filtering_mode = FILTERING_MODE_INCLUDE then
    should_export_entity entity_id allowed_entities
  else
    if allowed_entities.isEmpty then true
    else !(should_export_entity entity_id allowed_entities)

/-! ### `services.extract_room_from_entity` -/

/-- The fixed room vocabulary of `extract_room_from_entity`. -/
def room_keywords : List String :=
  ["bedroom", "bathroom", "kitchen", "basement", "attic",
   "living", "dining", "family", "office", "garage", "front"]

/-- Python `entity_id.split('_')`, on character lists (adjacent or
leading separators yield empty tokens, exactly as in Python). -/
def splitUnderscore : List Char → List (List Char)
  | [] => [[]]
  | c :: cs =>
    let r := splitUnderscore cs
    if c = '_' then [] :: r
    else
      match r with
      | [] => [[c]]
      | h :: t => (c :: h) :: t

/-- Python `str.title` (ASCII model): a letter after a non-letter is
uppercased, a letter after a letter is lowercased. -/
def pyTitleGo : Bool → List Char → List Char
  | _, [] => []
  | prevAlpha, c :: cs =>
    if c.isAlpha then
      (if prevAlpha then c.toLower else c.toUpper) :: pyTitleGo true cs
    else c :: pyTitleGo false cs

/-- Python `str.title` on one token. -/
def pyTitle (cs : List Char) : List Char := pyTitleGo false cs

/-- Python `str.lower` on one token (ASCII model). -/
def token_lower (cs : List Char) : List Char := cs.map Char.toLower

/-- The scanning loop of `extract_room_from_entity`: find the first
underscore token in the vocabulary, keep it (title-cased) and also keep
the following token when it is in the vocabulary too, then stop. -/
def find_room_parts : List (List Char) → List (List Char)
  | [] => []
  | p :: rest =>
    if room_keywords.contains (String.mk (token_lower p)) then
      match rest with
      | q :: _ =>
        if room_keywords.contains (String.mk (token_lower q)) then [pyTitle p, pyTitle q]
        else [pyTitle p]
      | [] => [pyTitle p]
    else find_room_parts rest

/-- Python `' '.join` on tokens. -/
def joinSpace : List (List Char) → List Char
  | [] => []
  | [t] => t
  | t :: rest => t ++ ' ' :: joinSpace rest

/-- Room extraction from the `_`-separated tokens of the entity id. -/
def extract_room_core (entity_id : String) : Option String :=
  let room_parts := find_room_parts (splitUnderscore entity_id.data)
  if room_parts.isEmpty then none else some (String.mk (joinSpace room_parts))

/-- `services.extract_room_from_entity`: a truthy (non-empty) explicit
area name wins, otherwise the entity id is scanned for room keywords. -/
def extract_room_from_entity (entity_id : String) (area_name : Option String) : Option String :=
  match area_name with
  | some a => if a.isEmpty then extract_room_core entity_id else some a
  | none => extract_room_core entity_id

/-! ### Strategy selection of `_export_data_range` (services.py) -/

/-- The bulk-upload cutoff of `_export_data_range`
(`bulk_upload_threshold = 10000`). -/
def bulk_upload_threshold : Nat := 10000

/-- The three ways `_export_data_range` can proceed after probing the
row count of the window. -/
inductive RangePath
  | emptyReturn
  | bulkFile
  | direct
deriving DecidableEq, Repr

/-- Path selection in `_export_data_range`: zero rows return immediately;
with bulk mode on, strictly more than `bulk_upload_threshold` rows go to
`_bulk_export_via_file`; everything else uses direct batched inserts. -/
def select_export_path (use_bulk_upload : Bool) (test_count : Nat) : RangePath :=
  if test_count = 0 then RangePath.emptyReturn
  else if use_bulk_upload && decide (test_count > bulk_upload_threshold) then RangePath.bulkFile
  else RangePath.direct

/-! ### Single-flight and rate limiting of
`coordinator.async_manual_export` -/

/-- Outcome of the guards at the top of `async_manual_export`. -/
inductive ManualExportOutcome
  | rejected_in_progress
  | rejected_too_soon
  | accepted
deriving DecidableEq, Repr

/-- The two early-return guards of `async_manual_export`: reject when an
export is already in flight, then reject when the previous run finished
less than 60 seconds ago.  Times are epoch seconds. -/
def manual_export_guard (export_in_progress : Bool)
    (last_run_finish_time : Option Int) (now : Int) : ManualExportOutcome :=
  if export_in_progress then ManualExportOutcome.rejected_in_progress
  else
    match last_run_finish_time with
    | some t =>
      if now - t < 60 then ManualExportOutcome.rejected_too_soon
      else ManualExportOutcome.accepted
    | none => ManualExportOutcome.accepted

/-- The value `async_manual_export` returns immediately on a rejected
request (`some false`); an accepted request goes on to run the export. -/
def guard_return_value : ManualExportOutcome → Option Bool
  | ManualExportOutcome.rejected_in_progress => some false
  | ManualExportOutcome.rejected_too_soon => some false
  | ManualExportOutcome.accepted => none

/-- Whether any export work is started for the outcome. -/
def guard_starts_export : ManualExportOutcome → Bool
  | ManualExportOutcome.accepted => true
  | _ => false

/-! ### The chunk loop of `_export_with_chunking` (services.py)

Timestamps are natural numbers of seconds; a chunk size of
`chunk_size_days` days is `chunk_size_days * 86400` seconds
(`timedelta(days=chunk_size_days)`). -/

/-- Fuel-indexed version of the `while current_end > start_time` loop:
each iteration emits the sub-window
`(max start_time (current_end - chunk), current_end)` and continues at
its lower bound.  With a positive chunk size every iteration lowers
`current_end` by at least one, so fuel `e` is always enough. -/
def chunk_ranges_fuel (chunk start : Nat) : Nat → Nat → List (Nat × Nat)
  | 0, _ => []
  | fuel + 1, e =>
    if start < e then
      (max start (e - chunk), e) :: chunk_ranges_fuel chunk start fuel (max start (e - chunk))
    else []

/-- The list of sub-windows `_export_with_chunking` exports, most recent
first. -/
def chunk_ranges (chunk start e : Nat) : List (Nat × Nat) :=
  chunk_ranges_fuel chunk start e e

/-- Result of the chunked export: overall success, accumulated record
count, the sub-windows actually sent to `_export_data_range` (each one a
source-store query), and the final status message. -/
structure ChunkedExportResult where
  success : Bool
  records_exported : Nat
  chunk_queries : List (Nat × Nat)
  status_message : String
deriving DecidableEq, Repr

/-- The chunk loop on the happy path: export every sub-window and sum the
per-chunk record counts (`export_range` stands for
`_export_data_range`). -/
def run_chunk_loop (chunk start e : Nat) (export_range : Nat → Nat → Nat) :
    ChunkedExportResult :=
  let chunks := chunk_ranges chunk start e
  { success := true
    records_exported := (chunks.map fun c => export_range c.1 c.2).sum
    chunk_queries := chunks
    status_message := "completed" }

/-- `services._export_with_chunking` (success path): in smart mode the
start is clamped forward to the watermark (the destination's maximum
`export_timestamp`, queried by `_get_last_export_time`) when the
watermark is at or past the start, and when the clamped window is empty
the function reports "No new data to export" with a count of 0 and runs
no chunk at all. -/
def export_with_chunking (use_smart_chunking : Bool)
    (last_export_time : Option Nat) (start_time end_time chunk : Nat)
    (export_range : Nat → Nat → Nat) : ChunkedExportResult :=
  if use_smart_chunking then
    let start1 :=
      match last_export_time with
      | some w => if start_time ≤ w then w else start_time
      | none => start_time
    if end_time ≤ start1 then
      { success := true
        records_exported := 0
        chunk_queries := []
        status_message := "No new data to export" }
    else run_chunk_loop chunk start1 end_time export_range
  else run_chunk_loop chunk start_time end_time export_range

/-! ### The MERGE primitive of `_insert_batch` / `_bulk_export_via_file`

Both paths issue the same statement: load the batch into a temporary
table, then

```
MERGE main AS target
USING (SELECT ... FROM temp
       QUALIFY ROW_NUMBER() OVER
         (PARTITION BY entity_id, last_changed
          ORDER BY last_updated DESC) = 1) AS source
ON target.entity_id = source.entity_id
   AND target.last_changed = source.last_changed
WHEN MATCHED THEN UPDATE SET <derived columns only>
WHEN NOT MATCHED THEN INSERT <all columns>
```

Column values never influence the merge logic, so every non-key payload
column is modelled as an opaque `Option String`.  The columns are split
exactly as in the statement: `UpdatedColumns` lists the columns the
`WHEN MATCHED` branch overwrites, `FrozenColumns` the columns it leaves
untouched (they are only ever written by the `INSERT` branch). -/

/-- The columns assigned by the `WHEN MATCHED THEN UPDATE SET` branch. -/
structure UpdatedColumns where
  record_type : Option String
  event_type : Option String
  event_data : Option String
  triggered_by : Option String
  area_id : Option String
  area_name : Option String
  labels : Option String
  hour_of_day : Option String
  day_of_week : Option String
  is_weekend : Option String
  is_night : Option String
  time_of_day : Option String
  month : Option String
  season : Option String
  state_changed : Option String
  state_numeric : Option String
  temperature_value : Option String
  humidity_value : Option String
  power_value : Option String
  energy_value : Option String
  room : Option String
  device_category : Option String
  hvac_mode : Option String
  hvac_action : Option String
  target_temperature : Option String
  current_temperature : Option String
  fan_mode : Option String
  hour_sin : Option String
  hour_cos : Option String
  day_sin : Option String
  day_cos : Option String
  state_delta : Option String
  state_derivative : Option String
  time_since_last_change : Option String
  occupancy_score : Option String
  occupancy_confidence : Option String
deriving DecidableEq, Repr

/-- The inserted-only columns, not listed in `UPDATE SET`. -/
structure FrozenColumns where
  record_id : Option String
  timestamp : Option String
  state : Option String
  attributes : Option String
  context_id : Option String
  context_user_id : Option String
  domain : Option String
  friendly_name : Option String
  unit_of_measurement : Option String
  export_timestamp : Option String
deriving DecidableEq, Repr

/-- One row of the destination (or temporary) table.  `last_changed` and
`last_updated` are epoch timestamps. -/
structure MergeRow where
  entity_id : String
  last_changed : Int
  last_updated : Int
  frozen : FrozenColumns
  upd : UpdatedColumns
deriving DecidableEq, Repr

/-- The merge key `(entity_id, last_changed)`. -/
abbrev MergeKey := String × Int

/-- Key of a row. -/
def keyOf (r : MergeRow) : MergeKey := (r.entity_id, r.last_changed)

/-- `ORDER BY last_updated DESC ... = 1` keeps the row with the greatest
`last_updated`; SQL leaves ties unspecified, the model keeps the earliest
of the tied rows in batch order. -/
def pickLater (a b : MergeRow) : MergeRow :=
  if a.last_updated < b.last_updated then b else a

/-- Representative of a non-empty group of same-key rows. -/
def winner : List MergeRow → Option MergeRow
  | [] => none
  | r :: rs => some (rs.foldl pickLater r)

/-- All batch rows with the given key. -/
def rows_for_key (k : MergeKey) (rows : List MergeRow) : List MergeRow :=
  rows.filter fun r => decide (keyOf r = k)

/-- The `QUALIFY ROW_NUMBER() ... = 1` subquery: one row per distinct
key, the one with the greatest `last_updated`. -/
def dedup_source (batch : List MergeRow) : List MergeRow :=
  ((batch.map keyOf).dedup).filterMap fun k => winner (rows_for_key k batch)

/-- The `WHEN MATCHED` branch: overwrite exactly the `UPDATE SET`
columns, keep the key, `last_updated` and the frozen columns. -/
def apply_update (target src : MergeRow) : MergeRow :=
  { target with upd := src.upd }

/-- How one target row comes out of the MERGE: updated from the
deduplicated source row with its key when there is one, untouched
otherwise. -/
def merge_map_row (src : List MergeRow) (t : MergeRow) : MergeRow :=
  match src.find? (fun s => decide (keyOf s = keyOf t)) with
  | some s => apply_update t s
  | none => t

/-- The `WHEN NOT MATCHED THEN INSERT` branch: the deduplicated source
rows whose key is absent from the target. -/
def merge_inserted (target src : List MergeRow) : List MergeRow :=
  src.filter fun s => !(target.any fun t => decide (keyOf t = keyOf s))

/-- The whole MERGE statement as a function from the target table state
and the batch to the new table state. -/
def merge_into (target batch : List MergeRow) : List MergeRow :=
  target.map (merge_map_row (dedup_source batch))
    ++ merge_inserted target (dedup_source batch)

/-- First row with the given key. -/
def find_row (k : MergeKey) (rows : List MergeRow) : Option MergeRow :=
  rows.find? fun r => decide (keyOf r = k)

/-- No two rows of the table share the merge key. -/
def keys_nodup (rows : List MergeRow) : Prop := (rows.map keyOf).Nodup

instance (rows : List MergeRow) : Decidable (keys_nodup rows) := by
  unfold keys_nodup; infer_instance

/-- A later export of the same window produces the same rows except for
the run's wall-clock `export_timestamp`, which is not part of the merge
key and is never updated on match. -/
def set_export_timestamp (ts : Option String) (r : MergeRow) : MergeRow :=
  { r with frozen := { r.frozen with export_timestamp := ts } }

/-- All-null payload, for building concrete rows. -/
def blank_frozen : FrozenColumns :=
  ⟨none, none, none, none, none, none, none, none, none, none⟩

/-- All-null derived columns, for building concrete rows. -/
def blank_upd : UpdatedColumns :=
  ⟨none, none, none, none, none, none, none, none, none, none,
   none, none, none, none, none, none, none, none, none, none,
   none, none, none, none, none, none, none, none, none, none,
   none, none, none, none, none, none⟩

/-- Concrete row with the given key and `last_updated`. -/
def mkRow (eid : String) (lc lu : Int) : MergeRow :=
  { entity_id := eid, last_changed := lc, last_updated := lu,
    frozen := blank_frozen, upd := blank_upd }

/-! ## Theorems -/

/-- C3: in include mode a row is exported iff its entity id matches at
least one configured glob pattern (an empty pattern set exports nothing),
and in exclude mode iff it matches none; concretely,
`mode=include, patterns=["sensor.temp_*"]` exports `sensor.temp_1` and
not `sensor.humidity_1`, while `mode=exclude, patterns=["sensor.noisy_*"]`
drops `sensor.noisy_1` and keeps `sensor.anything_else`. -/
theorem filter_correctness :
    (∀ (ps : List String) (e : String),
      export_decision FILTERING_MODE_INCLUDE ps e = true ↔ ∃ p ∈ ps, fnmatch e p = true)
    ∧ (∀ (ps : List String) (e : String),
      export_decision FILTERING_MODE_EXCLUDE ps e = true ↔ ¬ ∃ p ∈ ps, fnmatch e p = true)
    ∧ (∀ e : String, export_decision FILTERING_MODE_INCLUDE [] e = false)
    ∧ export_decision FILTERING_MODE_INCLUDE ["sensor.temp_*"] "sensor.temp_1" = true
    ∧ export_decision FILTERING_MODE_INCLUDE ["sensor.temp_*"] "sensor.humidity_1" = false
    ∧ export_decision FILTERING_MODE_EXCLUDE ["sensor.noisy_*"] "sensor.noisy_1" = false
    ∧ export_decision FILTERING_MODE_EXCLUDE ["sensor.noisy_*"] "sensor.anything_else" = true := by
  refine ⟨?_, ?_, ?_, by decide, by decide, by decide, by decide⟩
  · intro ps e
    cases ps with
    | nil => simp [export_decision, should_export_entity]
    | cons p ps => simp [export_decision, should_export_entity, List.any_eq_true]
  · intro ps e
    cases ps with
    | nil => simp [export_decision, should_export_entity, FILTERING_MODE_EXCLUDE,
        FILTERING_MODE_INCLUDE]
    | cons p ps => simp [export_decision, should_export_entity, FILTERING_MODE_EXCLUDE,
        FILTERING_MODE_INCLUDE, List.any_eq_true]
  · intro e
    simp [export_decision, should_export_entity]

/-- C10: over any pattern list the exclude-mode decision is the boolean
negation of the include-mode decision; with no patterns include mode
exports nothing and exclude mode exports everything. -/
theorem filter_mode_duality :
    (∀ (ps : List String) (e : String),
      export_decision FILTERING_MODE_EXCLUDE ps e
        = !(export_decision FILTERING_MODE_INCLUDE ps e))
    ∧ (∀ e : String, export_decision FILTERING_MODE_INCLUDE [] e = false)
    ∧ (∀ e : String, export_decision FILTERING_MODE_EXCLUDE [] e = true) := by
  refine ⟨?_, ?_, ?_⟩
  · intro ps e
    cases ps with
    | nil => simp [export_decision, should_export_entity, FILTERING_MODE_EXCLUDE,
        FILTERING_MODE_INCLUDE]
    | cons p ps => simp [export_decision, should_export_entity, FILTERING_MODE_EXCLUDE,
        FILTERING_MODE_INCLUDE]
  · intro e
    simp [export_decision, should_export_entity]
  · intro e
    simp [export_decision, should_export_entity, FILTERING_MODE_EXCLUDE,
      FILTERING_MODE_INCLUDE]

/-- C7: with bulk mode enabled, a window counting exactly 10,000 rows
stays on the direct batched-insert path and any count strictly above
10,000 is delegated to the bulk file path. -/
theorem bulk_threshold_boundary :
    select_export_path true 10000 = RangePath.direct
    ∧ select_export_path true 10001 = RangePath.bulkFile
    ∧ (∀ c : Nat, bulk_upload_threshold < c →
        select_export_path true c = RangePath.bulkFile)
    ∧ (∀ c : Nat, 0 < c → c ≤ bulk_upload_threshold →
        select_export_path true c = RangePath.direct) := by
  refine ⟨by decide, by decide, ?_, ?_⟩
  · intro c hc
    have hne : c ≠ 0 := by omega
    simp [select_export_path, hne, hc]
  · intro c hc hle
    have hne : c ≠ 0 := by omega
    have : ¬ (c > bulk_upload_threshold) := by omega
    simp [select_export_path, hne, this]

/-- C7 witness: the theorem applied at counts 10001 and 10000. -/
theorem bulk_threshold_boundary_witness :
    (bulk_upload_threshold < 10001 ∧ select_export_path true 10001 = RangePath.bulkFile)
    ∧ (0 < 10000 ∧ 10000 ≤ bulk_upload_threshold
        ∧ select_export_path true 10000 = RangePath.direct) :=
  ⟨⟨by decide, bulk_threshold_boundary.2.2.1 10001 (by decide)⟩,
   ⟨by decide, by decide, bulk_threshold_boundary.2.2.2 10000 (by decide) (by decide)⟩⟩

/-- C8: a manual export request during a running export is rejected
immediately with return value `False` and no export work, and a request
strictly less than 60 seconds after the previous run's finish is rejected
the same way with the "too soon" outcome; at 60 seconds or more (and no
run in flight) the request is accepted. -/
theorem manual_export_rejection :
    (∀ (lf : Option Int) (now : Int),
      manual_export_guard true lf now = ManualExportOutcome.rejected_in_progress
      ∧ guard_return_value (manual_export_guard true lf now) = some false
      ∧ guard_starts_export (manual_export_guard true lf now) = false)
    ∧ (∀ (t now : Int), now - t < 60 →
      manual_export_guard false (some t) now = ManualExportOutcome.rejected_too_soon
      ∧ guard_return_value (manual_export_guard false (some t) now) = some false
      ∧ guard_starts_export (manual_export_guard false (some t) now) = false)
    ∧ (∀ (t now : Int), 60 ≤ now - t →
      manual_export_guard false (some t) now = ManualExportOutcome.accepted) := by
  refine ⟨?_, ?_, ?_⟩
  · intro lf now
    simp [manual_export_guard, guard_return_value, guard_starts_export]
  · intro t now h
    simp [manual_export_guard, h, guard_return_value, guard_starts_export]
  · intro t now h
    have : ¬ (now - t < 60) := by omega
    simp [manual_export_guard, this]

/-- C8 witness: a request 30 seconds after a finish at time 0 is
rejected as too soon, and one 60 seconds after is accepted. -/
theorem manual_export_rejection_witness :
    ((30 : Int) - 0 < 60
      ∧ manual_export_guard false (some 0) 30 = ManualExportOutcome.rejected_too_soon
      ∧ guard_return_value (manual_export_guard false (some 0) 30) = some false
      ∧ guard_starts_export (manual_export_guard false (some 0) 30) = false)
    ∧ ((60 : Int) ≤ 60 - 0
      ∧ manual_export_guard false (some 0) 60 = ManualExportOutcome.accepted)
    ∧ manual_export_guard true (some 0) 30 = ManualExportOutcome.rejected_in_progress :=
  ⟨⟨by decide, (manual_export_rejection.2.1 0 30 (by decide)).1,
    (manual_export_rejection.2.1 0 30 (by decide)).2.1,
    (manual_export_rejection.2.1 0 30 (by decide)).2.2⟩,
   ⟨by decide, manual_export_rejection.2.2 0 60 (by decide)⟩,
   (manual_export_rejection.1 (some 0) 30).1⟩

/-- C9: the room heuristic at the failing input.  The function's own
docstring promises `sensor.airthings_master_bedroom_temperature ->
Master Bedroom`, but `master` is not in `room_keywords`, so the code
returns only `Bedroom`; the explicit-area and no-keyword cases do behave
as documented. -/
theorem room_extraction_master_bedroom :
    extract_room_from_entity "sensor.airthings_master_bedroom_temperature" none
      = some "Bedroom"
    ∧ extract_room_from_entity "sensor.airthings_master_bedroom_temperature" none
      ≠ some "Master Bedroom"
    ∧ extract_room_from_entity "sensor.x" (some "Kitchen") = some "Kitchen"
    ∧ extract_room_from_entity "sensor.awair_temperature" none = none := by
  refine ⟨by decide, by decide, by decide, by decide⟩

/-- C6: in smart mode, whenever the watermark returned by
`_get_last_export_time` is at or past the requested end time, the
chunked export reports "No new data to export", counts 0 records and
queries no chunk at all (so no source-store reads and no destination
writes happen). -/
theorem smart_chunking_noop :
    ∀ (w start_time end_time chunk : Nat) (f : Nat → Nat → Nat),
      end_time ≤ w →
      export_with_chunking true (some w) start_time end_time chunk f =
        { success := true, records_exported := 0, chunk_queries := [],
          status_message := "No new data to export" } := by
  intro w s e c f hw
  unfold export_with_chunking
  by_cases h : s ≤ w
  · simp [h, hw]
  · have : e ≤ s := by omega
    simp [h, this]

/-- C6 witness: watermark 50 at or past the end 40 of the window
`[0, 40)` yields the no-op result. -/
theorem smart_chunking_noop_witness :
    (40 : Nat) ≤ 50
    ∧ export_with_chunking true (some 50) 0 40 7 (fun _ _ => 3) =
      { success := true, records_exported := 0, chunk_queries := [],
        status_message := "No new data to export" } :=
  ⟨by decide, smart_chunking_noop 50 0 40 7 (fun _ _ => 3) (by decide)⟩

/-- Removing each name of `names` in turn is one filter keeping the keys
outside `names`. -/
theorem foldl_filter_attrs {α : Type} (names : List String) (acc : List (String × α)) :
    names.foldl (fun a attr => a.filter fun kv => kv.1 != attr) acc
      = acc.filter fun kv => decide (kv.1 ∉ names) := by
  induction names generalizing acc with
  | nil => simp
  | cons n ns ih =>
    calc (n :: ns).foldl (fun a attr => a.filter fun kv => kv.1 != attr) acc
        = ns.foldl (fun a attr => a.filter fun kv => kv.1 != attr)
            (acc.filter fun kv => kv.1 != n) := rfl
      _ = (acc.filter fun kv => kv.1 != n).filter (fun kv => decide (kv.1 ∉ ns)) := ih _
      _ = acc.filter fun kv => decide (kv.1 ∉ n :: ns) := by
          rw [List.filter_filter]
          refine List.filter_congr fun kv _ => ?_
          by_cases h1 : kv.1 = n <;> by_cases h2 : kv.1 ∈ ns <;> simp [h1, h2]

/-- Unfolding `deniedKey` over the head of the table. -/
theorem deniedKey_cons (e k : String) (pd : String × List String)
    (ds : List (String × List String)) :
    deniedKey e k (pd :: ds) ↔
      (fnmatch e pd.1 = true ∧ k ∈ pd.2) ∨ deniedKey e k ds := by
  simp [deniedKey]

/-- The fold at the heart of `sanitize_attributes` keeps exactly the
non-denied keys. -/
theorem fold_denied {α : Type} (e : String) (denied : List (String × List String))
    (acc : List (String × α)) :
    denied.foldl
        (fun sanitized pd =>
          if fnmatch e pd.1 then
            pd.2.foldl (fun acc attr => acc.filter fun kv => kv.1 != attr) sanitized
          else sanitized) acc
      = acc.filter fun kv => decide (¬ deniedKey e kv.1 denied) := by
  induction denied generalizing acc with
  | nil => simp [deniedKey]
  | cons pd ds ih =>
    rw [List.foldl_cons, ih]
    by_cases h : fnmatch e pd.1 = true
    · rw [if_pos h, foldl_filter_attrs, List.filter_filter]
      refine List.filter_congr fun kv _ => ?_
      by_cases h2 : kv.1 ∈ pd.2 <;> by_cases h3 : deniedKey e kv.1 ds <;>
        simp [deniedKey_cons, h, h2, h3]
    · rw [if_neg h]
      refine List.filter_congr fun kv _ => ?_
      by_cases h3 : deniedKey e kv.1 ds <;>
        simp [deniedKey_cons, h, h3]

/-- `sanitize_attributes` is the filter keeping exactly the keys not
denied for the entity. -/
theorem sanitize_eq_filter {α : Type} (e : String) (attrs : List (String × α))
    (denied : List (String × List String)) :
    sanitize_attributes e attrs denied
      = attrs.filter fun kv => decide (¬ deniedKey e kv.1 denied) := by
  unfold sanitize_attributes
  cases h1 : attrs.isEmpty with
  | true =>
    have : attrs = [] := by
      cases attrs with
      | nil => rfl
      | cons a l => simp [List.isEmpty] at h1
    subst this
    simp
  | false =>
    cases h2 : denied.isEmpty with
    | true =>
      have : denied = [] := by
        cases denied with
        | nil => rfl
        | cons a l => simp [List.isEmpty] at h2
      subst this
      simp [deniedKey]
    | false =>
      simp only [h1, h2, Bool.or_self, Bool.false_or, if_neg Bool.false_ne_true]
      exact fold_denied e denied attrs

/-- C4: sanitization keeps exactly the input pairs whose key is not
listed under any pattern matching the entity id — no other value changes
and nothing is added; concretely, for `device_tracker.phone` with
`denied_attributes={"device_tracker.*": ["latitude","longitude"]}` the
attributes `{latitude:1, longitude:2, battery:50}` become
`{battery:50}`. -/
theorem attribute_redaction :
    (∀ (α : Type) (e : String) (attrs : List (String × α))
        (denied : List (String × List String)),
      sanitize_attributes e attrs denied
        = attrs.filter (fun kv => decide (¬ deniedKey e kv.1 denied))
      ∧ ∀ kv, kv ∈ sanitize_attributes e attrs denied ↔
          kv ∈ attrs ∧ ¬ deniedKey e kv.1 denied)
    ∧ sanitize_attributes "device_tracker.phone"
        [("latitude", (1 : Int)), ("longitude", 2), ("battery", 50)]
        [("device_tracker.*", ["latitude", "longitude"])]
      = [("battery", 50)] := by
  refine ⟨?_, by decide⟩
  intro α e attrs denied
  refine ⟨sanitize_eq_filter e attrs denied, ?_⟩
  intro kv
  rw [sanitize_eq_filter e attrs denied, List.mem_filter]
  simp

/-- The `while current_end > start_time` loop of `_export_with_chunking`,
with enough fuel: every emitted sub-window sits inside `[start, e)`, is
non-empty and at most `chunk` long; the sub-windows exactly cover
`[start, e)`; and they are listed most recent first, pairwise disjoint. -/
theorem chunk_ranges_fuel_spec (chunk start : Nat) (hc : 0 < chunk) :
    ∀ (fuel e : Nat), e - start ≤ fuel →
      (∀ p ∈ chunk_ranges_fuel chunk start fuel e,
        start ≤ p.1 ∧ p.2 ≤ e ∧ p.1 < p.2 ∧ p.2 - p.1 ≤ chunk)
      ∧ (∀ t : Nat, (start ≤ t ∧ t < e) ↔
          ∃ p ∈ chunk_ranges_fuel chunk start fuel e, p.1 ≤ t ∧ t < p.2)
      ∧ List.Pairwise (fun p q : Nat × Nat => q.2 ≤ p.1)
          (chunk_ranges_fuel chunk start fuel e) := by
  intro fuel
  induction fuel with
  | zero =>
    intro e he
    refine ⟨by simp [chunk_ranges_fuel], ?_, by simp [chunk_ranges_fuel]⟩
    intro t
    simp [chunk_ranges_fuel]
    omega
  | succ n ih =>
    intro e he
    by_cases h : start < e
    · have hs1 : start ≤ max start (e - chunk) := Nat.le_max_left _ _
      have hs2 : e - chunk ≤ max start (e - chunk) := Nat.le_max_right _ _
      have hs3 : max start (e - chunk) < e :=
        Nat.max_lt.mpr ⟨h, Nat.sub_lt (Nat.lt_of_le_of_lt (Nat.zero_le start) h) hc⟩
      have hstep : chunk_ranges_fuel chunk start (n + 1) e
          = (max start (e - chunk), e) :: chunk_ranges_fuel chunk start n (max start (e - chunk)) := by
        simp [chunk_ranges_fuel, h]
      obtain ⟨ihb, ihc, ihp⟩ := ih (max start (e - chunk)) (by omega)
      rw [hstep]
      refine ⟨?_, ?_, ?_⟩
      · intro p hp
        rcases List.mem_cons.mp hp with rfl | hp'
        · exact ⟨hs1, le_refl e, hs3, by omega⟩
        · obtain ⟨b1, b2, b3, b4⟩ := ihb p hp'
          exact ⟨b1, le_trans b2 (le_of_lt hs3), b3, b4⟩
      · intro t
        constructor
        · rintro ⟨ht1, ht2⟩
          by_cases hts : max start (e - chunk) ≤ t
          · exact ⟨(max start (e - chunk), e), List.mem_cons_self _ _, hts, ht2⟩
          · obtain ⟨p, hp, hpt⟩ := (ihc t).mp ⟨ht1, by omega⟩
            exact ⟨p, List.mem_cons_of_mem _ hp, hpt⟩
        · rintro ⟨p, hp, hp1, hp2⟩
          rcases List.mem_cons.mp hp with rfl | hp'
          · exact ⟨le_trans hs1 hp1, hp2⟩
          · obtain ⟨b1, b2, _, _⟩ := ihb p hp'
            exact ⟨le_trans b1 hp1, lt_of_lt_of_le hp2 (le_trans b2 (le_of_lt hs3))⟩
      · refine List.pairwise_cons.mpr ⟨?_, ihp⟩
        intro q hq
        exact (ihb q hq).2.1
    · have hnil : chunk_ranges_fuel chunk start (n + 1) e = [] := by
        simp [chunk_ranges_fuel, h]
      rw [hnil]
      refine ⟨by simp, ?_, by simp⟩
      intro t
      simp
      omega

/-- C5: with a positive chunk size the scheduler partitions `[start, e)`
into consecutive sub-windows of at most `chunk` seconds each, listed
most recent first (the head ends at `e`, and every later sub-window lies
entirely before the previous one), covering the window with no gaps and
no overlaps; a 23-day window with 7-day chunks yields exactly the 4
chunks `[16,23) [9,16) [2,9) [0,2)` (in days, here in seconds). -/
theorem chunking_coverage :
    (∀ (chunk start e : Nat), 0 < chunk →
      (∀ p ∈ chunk_ranges chunk start e,
        start ≤ p.1 ∧ p.2 ≤ e ∧ p.1 < p.2 ∧ p.2 - p.1 ≤ chunk)
      ∧ (∀ t : Nat, (start ≤ t ∧ t < e) ↔
          ∃ p ∈ chunk_ranges chunk start e, p.1 ≤ t ∧ t < p.2)
      ∧ List.Pairwise (fun p q : Nat × Nat => q.2 ≤ p.1) (chunk_ranges chunk start e)
      ∧ (start < e →
          (chunk_ranges chunk start e).head? = some (max start (e - chunk), e)))
    ∧ chunk_ranges (7 * 86400) 0 (23 * 86400) =
        [(16 * 86400, 23 * 86400), (9 * 86400, 16 * 86400),
         (2 * 86400, 9 * 86400), (0, 2 * 86400)]
    ∧ (chunk_ranges (7 * 86400) 0 (23 * 86400)).length = 4 := by
  refine ⟨?_, by decide, by decide⟩
  intro chunk start e hc
  obtain ⟨hb, hcov, hp⟩ := chunk_ranges_fuel_spec chunk start hc e e (Nat.sub_le e start)
  refine ⟨hb, hcov, hp, ?_⟩
  intro hlt
  cases e with
  | zero => omega
  | succ m =>
    show (chunk_ranges_fuel chunk start (m + 1) (m + 1)).head? = _
    simp [chunk_ranges_fuel, hlt]

/-- C5 witness: the partition properties at the 23-day window with 7-day
chunks. -/
theorem chunking_coverage_witness :
    0 < 7 * 86400
    ∧ List.Pairwise (fun p q : Nat × Nat => q.2 ≤ p.1)
        (chunk_ranges (7 * 86400) 0 (23 * 86400))
    ∧ (0 : Nat) < 23 * 86400
    ∧ (chunk_ranges (7 * 86400) 0 (23 * 86400)).head?
        = some (max 0 (23 * 86400 - 7 * 86400), 23 * 86400) :=
  ⟨by decide,
   (chunking_coverage.1 (7 * 86400) 0 (23 * 86400) (by decide)).2.2.1,
   by decide,
   (chunking_coverage.1 (7 * 86400) 0 (23 * 86400) (by decide)).2.2.2 (by decide)⟩

/-! ### Lemmas about the MERGE model -/

/-- Updating derived columns never changes the merge key. -/
theorem keyOf_apply_update (t s : MergeRow) : keyOf (apply_update t s) = keyOf t := rfl

/-- A merged target row keeps its key. -/
theorem keyOf_merge_map_row (src : List MergeRow) (t : MergeRow) :
    keyOf (merge_map_row src t) = keyOf t := by
  unfold merge_map_row
  split <;> rfl

/-- When the source holds the key, the target row is updated from it. -/
theorem merge_map_row_eq_of_find {src : List MergeRow} {t s : MergeRow}
    (h : src.find? (fun s => decide (keyOf s = keyOf t)) = some s) :
    merge_map_row src t = apply_update t s := by
  unfold merge_map_row
  rw [h]

/-- When the source lacks the key, the target row is untouched. -/
theorem merge_map_row_eq_of_none {src : List MergeRow} {t : MergeRow}
    (h : src.find? (fun s => decide (keyOf s = keyOf t)) = none) :
    merge_map_row src t = t := by
  unfold merge_map_row
  rw [h]

/-- The fold behind `winner` returns one of its inputs. -/
theorem foldl_pickLater_mem (rs : List MergeRow) (a : MergeRow) :
    rs.foldl pickLater a ∈ a :: rs := by
  induction rs generalizing a with
  | nil => simp
  | cons r rs ih =>
    rw [List.foldl_cons]
    rcases List.mem_cons.mp (ih (pickLater a r)) with h' | h'
    · rw [h']
      unfold pickLater
      split
      · exact List.mem_cons_of_mem _ (List.mem_cons_self _ _)
      · exact List.mem_cons_self _ _
    · exact List.mem_cons_of_mem _ (List.mem_cons_of_mem _ h')

/-- The fold behind `winner` dominates every input's `last_updated`. -/
theorem foldl_pickLater_le (rs : List MergeRow) (a : MergeRow) :
    a.last_updated ≤ (rs.foldl pickLater a).last_updated
    ∧ ∀ r ∈ rs, r.last_updated ≤ (rs.foldl pickLater a).last_updated := by
  induction rs generalizing a with
  | nil => simp
  | cons r rs ih =>
    obtain ⟨h1, h2⟩ := ih (pickLater a r)
    have ha : a.last_updated ≤ (pickLater a r).last_updated := by
      unfold pickLater
      split <;> omega
    have hr : r.last_updated ≤ (pickLater a r).last_updated := by
      unfold pickLater
      split <;> omega
    rw [List.foldl_cons]
    refine ⟨le_trans ha h1, ?_⟩
    intro x hx
    rcases List.mem_cons.mp hx with rfl | hx'
    · exact le_trans hr h1
    · exact h2 x hx'

/-- The winner is a member of its group and has the greatest
`last_updated` in it. -/
theorem winner_spec (rs : List MergeRow) (w : MergeRow) (h : winner rs = some w) :
    w ∈ rs ∧ ∀ r ∈ rs, r.last_updated ≤ w.last_updated := by
  cases rs with
  | nil => simp [winner] at h
  | cons r rs =>
    simp only [winner, Option.some.injEq] at h
    subst h
    obtain ⟨h1, h2⟩ := foldl_pickLater_le rs r
    refine ⟨foldl_pickLater_mem rs r, ?_⟩
    intro x hx
    rcases List.mem_cons.mp hx with rfl | hx'
    · exact h1
    · exact h2 x hx'

/-- A non-empty group has a winner. -/
theorem winner_isSome (rs : List MergeRow) (h : rs ≠ []) : ∃ w, winner rs = some w := by
  cases rs with
  | nil => exact absurd rfl h
  | cons r rs => exact ⟨_, rfl⟩

/-- Every row of a key's group carries that key. -/
theorem rows_for_key_all (k : MergeKey) (batch : List MergeRow) :
    ∀ r ∈ rows_for_key k batch, keyOf r = k := by
  intro r hr
  have h := (List.mem_filter.mp hr).2
  simpa using h

/-- A key's group is a subset of the batch. -/
theorem rows_for_key_subset (k : MergeKey) (batch : List MergeRow) :
    ∀ r ∈ rows_for_key k batch, r ∈ batch :=
  fun _ hr => (List.mem_filter.mp hr).1

/-- Every batch row appears in its own key's group. -/
theorem mem_rows_for_key {r : MergeRow} {batch : List MergeRow} (h : r ∈ batch) :
    r ∈ rows_for_key (keyOf r) batch :=
  List.mem_filter.mpr ⟨h, by simp⟩

/-- A key present in the batch has a non-empty group. -/
theorem rows_for_key_ne_nil {k : MergeKey} {batch : List MergeRow}
    (h : k ∈ batch.map keyOf) : rows_for_key k batch ≠ [] := by
  obtain ⟨r, hr, rfl⟩ := List.mem_map.mp h
  exact List.ne_nil_of_mem (mem_rows_for_key hr)

/-- The winner of a key's group carries that key. -/
theorem winner_key {k : MergeKey} {batch : List MergeRow} {w : MergeRow}
    (h : winner (rows_for_key k batch) = some w) : keyOf w = k :=
  rows_for_key_all k batch w (winner_spec _ _ h).1

/-- Keys pass through `dedup_source`'s `filterMap` unchanged. -/
theorem filterMap_winner_keys (batch : List MergeRow) :
    ∀ l : List MergeKey, (∀ k ∈ l, rows_for_key k batch ≠ []) →
      (l.filterMap fun k => winner (rows_for_key k batch)).map keyOf = l := by
  intro l
  induction l with
  | nil => simp
  | cons k l ih =>
    intro h
    obtain ⟨w, hw⟩ := winner_isSome _ (h k (List.mem_cons_self _ _))
    rw [List.filterMap_cons, hw, List.map_cons, winner_key hw,
      ih fun k' hk' => h k' (List.mem_cons_of_mem _ hk')]

/-- The deduplicated source has exactly the batch's distinct keys. -/
theorem dedup_source_keys (batch : List MergeRow) :
    (dedup_source batch).map keyOf = (batch.map keyOf).dedup := by
  unfold dedup_source
  exact filterMap_winner_keys batch _ fun k hk =>
    rows_for_key_ne_nil (List.mem_dedup.mp hk)

/-- The deduplicated source holds at most one row per key. -/
theorem keys_nodup_dedup_source (batch : List MergeRow) :
    keys_nodup (dedup_source batch) := by
  unfold keys_nodup
  rw [dedup_source_keys]
  exact List.nodup_dedup _

/-- A deduplicated source row comes from the batch and is the winner of
its key's group. -/
theorem mem_dedup_source {s : MergeRow} {batch : List MergeRow}
    (h : s ∈ dedup_source batch) :
    s ∈ batch ∧ winner (rows_for_key (keyOf s) batch) = some s := by
  obtain ⟨k, hk, hw⟩ := List.mem_filterMap.mp h
  have hks : keyOf s = k := winner_key hw
  rw [← hks] at hw
  exact ⟨rows_for_key_subset _ _ _ (winner_spec _ _ hw).1, hw⟩

/-- The winner of a present key belongs to the deduplicated source. -/
theorem winner_mem_dedup_source {k : MergeKey} {batch : List MergeRow} {w : MergeRow}
    (hk : k ∈ batch.map keyOf) (hw : winner (rows_for_key k batch) = some w) :
    w ∈ dedup_source batch :=
  List.mem_filterMap.mpr ⟨k, List.mem_dedup.mpr hk, hw⟩

/-- In a table with pairwise distinct keys, the key search finds exactly
the member carrying the key. -/
theorem find_by_key_nodup {l : List MergeRow} (hl : keys_nodup l) {r : MergeRow}
    (hr : r ∈ l) {k : MergeKey} (hk : keyOf r = k) :
    l.find? (fun x => decide (keyOf x = k)) = some r := by
  induction l with
  | nil => simp at hr
  | cons a l ih =>
    have hl' : (l.map keyOf).Nodup ∧ keyOf a ∉ l.map keyOf := by
      have := hl
      unfold keys_nodup at this
      rw [List.map_cons, List.nodup_cons] at this
      exact ⟨this.2, this.1⟩
    by_cases ha : keyOf a = k
    · rw [List.find?_cons_of_pos _ (by simp [ha])]
      rcases List.mem_cons.mp hr with rfl | hr'
      · rfl
      · exfalso
        apply hl'.2
        rw [ha, ← hk]
        exact List.mem_map_of_mem _ hr'
    · rw [List.find?_cons_of_neg _ (by simp [ha])]
      rcases List.mem_cons.mp hr with rfl | hr'
      · exact absurd hk ha
      · exact ih hl'.1 hr'

/-- Distinct-key tables identify rows by key. -/
theorem key_inj_of_nodup {l : List MergeRow} (hl : keys_nodup l) {a b : MergeRow}
    (ha : a ∈ l) (hb : b ∈ l) (hk : keyOf a = keyOf b) : a = b := by
  have h1 := find_by_key_nodup hl ha hk
  have h2 := find_by_key_nodup hl hb rfl
  rw [h1] at h2
  exact Option.some.inj h2

/-- For a key present in the batch, the deduplicated source is found at
exactly its group's winner. -/
theorem find_row_dedup_source {k : MergeKey} {batch : List MergeRow}
    (h : k ∈ batch.map keyOf) :
    ∃ w, winner (rows_for_key k batch) = some w
      ∧ find_row k (dedup_source batch) = some w ∧ keyOf w = k := by
  obtain ⟨w, hw⟩ := winner_isSome _ (rows_for_key_ne_nil h)
  refine ⟨w, hw, ?_, winner_key hw⟩
  exact find_by_key_nodup (keys_nodup_dedup_source batch)
    (winner_mem_dedup_source h hw) (winner_key hw)

/-- Every row of the merged table agrees, on the derived columns, with
the deduplicated source row of its key. -/
theorem merge_upd_agree {T B : List MergeRow} :
    ∀ t' ∈ merge_into T B, ∀ s ∈ dedup_source B,
      keyOf s = keyOf t' → s.upd = t'.upd := by
  intro t' ht' s hs hk
  rcases List.mem_append.mp ht' with hmap | hins
  · obtain ⟨t, _, rfl⟩ := List.mem_map.mp hmap
    have hk2 : keyOf s = keyOf t := by rw [hk, keyOf_merge_map_row]
    have hfind : (dedup_source B).find? (fun x => decide (keyOf x = keyOf t)) = some s :=
      find_by_key_nodup (keys_nodup_dedup_source B) hs hk2
    rw [merge_map_row_eq_of_find hfind]
    rfl
  · have hs' : t' ∈ dedup_source B := List.mem_of_mem_filter hins
    rw [key_inj_of_nodup (keys_nodup_dedup_source B) hs hs' hk]

/-- Every key of the deduplicated source is present in the merged
table. -/
theorem merge_key_present {T B : List MergeRow} :
    ∀ s ∈ dedup_source B,
      (merge_into T B).any (fun t => decide (keyOf t = keyOf s)) = true := by
  intro s hs
  rw [List.any_eq_true]
  by_cases hT : T.any (fun t => decide (keyOf t = keyOf s)) = true
  · obtain ⟨t, ht, hkt⟩ := List.any_eq_true.mp hT
    refine ⟨merge_map_row (dedup_source B) t,
      List.mem_append_left _ (List.mem_map_of_mem _ ht), ?_⟩
    rw [keyOf_merge_map_row]
    exact hkt
  · refine ⟨s, List.mem_append_right _ ?_, by simp⟩
    unfold merge_inserted
    refine List.mem_filter.mpr ⟨hs, ?_⟩
    simp only [Bool.not_eq_true] at hT
    simp [hT]

/-- Mapping the source's update over a table whose rows already carry the
source's derived columns changes nothing. -/
theorem merge_map_id {T' src' : List MergeRow}
    (h : ∀ t' ∈ T', ∀ s' ∈ src', keyOf s' = keyOf t' → s'.upd = t'.upd) :
    T'.map (merge_map_row src') = T' := by
  induction T' with
  | nil => rfl
  | cons t rest ih =>
    have h1 : merge_map_row src' t = t := by
      cases hf : src'.find? (fun s => decide (keyOf s = keyOf t)) with
      | none => exact merge_map_row_eq_of_none hf
      | some s =>
        have hkey : keyOf s = keyOf t := by simpa using List.find?_some hf
        have hupd : s.upd = t.upd :=
          h t (List.mem_cons_self _ _) s (List.mem_of_find?_eq_some hf) hkey
        rw [merge_map_row_eq_of_find hf]
        unfold apply_update
        rw [hupd]
    have h2 : rest.map (merge_map_row src') = rest :=
      ih fun t' ht' s' hs' hk => h t' (List.mem_cons_of_mem _ ht') s' hs' hk
    rw [List.map_cons, h1, h2]

/-- When every source key is already present, nothing is inserted. -/
theorem merge_inserted_nil {T' src' : List MergeRow}
    (h : ∀ s' ∈ src', T'.any (fun t => decide (keyOf t = keyOf s')) = true) :
    merge_inserted T' src' = [] := by
  unfold merge_inserted
  rw [List.filter_eq_nil_iff]
  intro s hs
  simp [h s hs]

/-- The inserted rows inherit the deduplicated source's distinct keys. -/
theorem keys_nodup_merge_inserted {T src : List MergeRow} (h : keys_nodup src) :
    keys_nodup (merge_inserted T src) := by
  unfold keys_nodup at h ⊢
  exact List.Nodup.sublist ((List.filter_sublist _).map keyOf) h

/-- Stamping a new `export_timestamp` keeps the merge key. -/
theorem stamp_keyOf (ts : Option String) (r : MergeRow) :
    keyOf (set_export_timestamp ts r) = keyOf r := rfl

/-- Stamping keeps `last_updated`. -/
theorem stamp_last_updated (ts : Option String) (r : MergeRow) :
    (set_export_timestamp ts r).last_updated = r.last_updated := rfl

/-- Stamping keeps the derived columns. -/
theorem stamp_upd (ts : Option String) (r : MergeRow) :
    (set_export_timestamp ts r).upd = r.upd := rfl

/-- Re-stamped rows tie-break exactly as the originals. -/
theorem pickLater_stamp (ts : Option String) (a b : MergeRow) :
    pickLater (set_export_timestamp ts a) (set_export_timestamp ts b)
      = set_export_timestamp ts (pickLater a b) := by
  unfold pickLater
  by_cases h : a.last_updated < b.last_updated <;>
    simp [stamp_last_updated, h]

/-- The winner fold commutes with re-stamping. -/
theorem foldl_pickLater_stamp (ts : Option String) (rs : List MergeRow) (a : MergeRow) :
    (rs.map (set_export_timestamp ts)).foldl pickLater (set_export_timestamp ts a)
      = set_export_timestamp ts (rs.foldl pickLater a) := by
  induction rs generalizing a with
  | nil => rfl
  | cons r rs ih => rw [List.map_cons, List.foldl_cons, List.foldl_cons, pickLater_stamp, ih]

/-- The winner commutes with re-stamping. -/
theorem winner_stamp (ts : Option String) (rs : List MergeRow) :
    winner (rs.map (set_export_timestamp ts)) = (winner rs).map (set_export_timestamp ts) := by
  cases rs with
  | nil => rfl
  | cons r rs => simp [winner, foldl_pickLater_stamp]

/-- Key groups commute with re-stamping. -/
theorem rows_for_key_stamp (ts : Option String) (k : MergeKey) (B : List MergeRow) :
    rows_for_key k (B.map (set_export_timestamp ts))
      = (rows_for_key k B).map (set_export_timestamp ts) := by
  unfold rows_for_key
  rw [List.filter_map]
  rfl

/-- The batch's key list is unchanged by re-stamping. -/
theorem map_keyOf_stamp (ts : Option String) (B : List MergeRow) :
    (B.map (set_export_timestamp ts)).map keyOf = B.map keyOf := by
  rw [List.map_map]
  exact List.map_congr_left fun r _ => stamp_keyOf ts r

/-- Deduplication commutes with re-stamping. -/
theorem dedup_source_stamp (ts : Option String) (B : List MergeRow) :
    dedup_source (B.map (set_export_timestamp ts))
      = (dedup_source B).map (set_export_timestamp ts) := by
  unfold dedup_source
  rw [map_keyOf_stamp]
  calc (B.map keyOf).dedup.filterMap
        (fun k => winner (rows_for_key k (B.map (set_export_timestamp ts))))
      = (B.map keyOf).dedup.filterMap
          (fun k => (winner (rows_for_key k B)).map (set_export_timestamp ts)) := by
        refine List.filterMap_congr fun k _ => ?_
        rw [rows_for_key_stamp, winner_stamp]
    _ = ((B.map keyOf).dedup.filterMap (fun k => winner (rows_for_key k B))).map
          (set_export_timestamp ts) := (List.map_filterMap _ _ _).symm

/-- C1: re-exporting the same window is idempotent — merging the same
batch again (even re-stamped with a new run's `export_timestamp`) leaves
the destination table unchanged, and the merge keyed on
`(entity_id, last_changed)` never creates a second row for an existing
key. -/
theorem idempotent_reexport :
    ∀ (T B : List MergeRow) (ts : Option String),
      merge_into (merge_into T B) B = merge_into T B
      ∧ merge_into (merge_into T B) (B.map (set_export_timestamp ts)) = merge_into T B
      ∧ (keys_nodup T → keys_nodup (merge_into T B)) := by
  intro T B ts
  refine ⟨?_, ?_, ?_⟩
  · show (merge_into T B).map (merge_map_row (dedup_source B))
        ++ merge_inserted (merge_into T B) (dedup_source B) = merge_into T B
    rw [merge_map_id fun t' ht' s hs hk => merge_upd_agree t' ht' s hs hk,
      merge_inserted_nil fun s hs => merge_key_present s hs, List.append_nil]
  · show (merge_into T B).map (merge_map_row (dedup_source (B.map (set_export_timestamp ts))))
        ++ merge_inserted (merge_into T B) (dedup_source (B.map (set_export_timestamp ts)))
        = merge_into T B
    rw [dedup_source_stamp]
    have hmap : ∀ t' ∈ merge_into T B,
        ∀ s' ∈ (dedup_source B).map (set_export_timestamp ts),
          keyOf s' = keyOf t' → s'.upd = t'.upd := by
      intro t' ht' s' hs' hk
      obtain ⟨s, hs, rfl⟩ := List.mem_map.mp hs'
      rw [stamp_upd]
      rw [stamp_keyOf] at hk
      exact merge_upd_agree t' ht' s hs hk
    have hins : ∀ s' ∈ (dedup_source B).map (set_export_timestamp ts),
        (merge_into T B).any (fun t => decide (keyOf t = keyOf s')) = true := by
      intro s' hs'
      obtain ⟨s, hs, rfl⟩ := List.mem_map.mp hs'
      have h := merge_key_present (T := T) s hs
      simpa [stamp_keyOf] using h
    rw [merge_map_id hmap, merge_inserted_nil hins, List.append_nil]
  · intro hT
    unfold keys_nodup
    show ((T.map (merge_map_row (dedup_source B))
        ++ merge_inserted T (dedup_source B)).map keyOf).Nodup
    rw [List.map_append]
    have h1 : (T.map (merge_map_row (dedup_source B))).map keyOf = T.map keyOf := by
      rw [List.map_map]
      exact List.map_congr_left fun t _ => keyOf_merge_map_row _ t
    rw [h1]
    refine List.Nodup.append hT (keys_nodup_merge_inserted (keys_nodup_dedup_source B)) ?_
    intro k hk1 hk2
    obtain ⟨s, hsIns, rfl⟩ := List.mem_map.mp hk2
    have hcond := (List.mem_filter.mp hsIns).2
    obtain ⟨t, ht, hkt⟩ := List.mem_map.mp hk1
    have : T.any (fun t => decide (keyOf t = keyOf s)) = true :=
      List.any_eq_true.mpr ⟨t, ht, by simp [hkt]⟩
    simp [this] at hcond

/-- C1 witness: merging a two-row batch into the empty table, then
merging it again (re-stamped), is a fixpoint with distinct keys. -/
theorem idempotent_reexport_witness :
    merge_into (merge_into [] [mkRow "sensor.a" 0 1, mkRow "sensor.a" 0 5])
        [mkRow "sensor.a" 0 1, mkRow "sensor.a" 0 5]
      = merge_into [] [mkRow "sensor.a" 0 1, mkRow "sensor.a" 0 5]
    ∧ merge_into (merge_into [] [mkRow "sensor.a" 0 1, mkRow "sensor.a" 0 5])
        ([mkRow "sensor.a" 0 1, mkRow "sensor.a" 0 5].map
          (set_export_timestamp (some "run2")))
      = merge_into [] [mkRow "sensor.a" 0 1, mkRow "sensor.a" 0 5]
    ∧ keys_nodup (merge_into [] [mkRow "sensor.a" 0 1, mkRow "sensor.a" 0 5]) :=
  ⟨(idempotent_reexport [] [mkRow "sensor.a" 0 1, mkRow "sensor.a" 0 5] (some "run2")).1,
   (idempotent_reexport [] [mkRow "sensor.a" 0 1, mkRow "sensor.a" 0 5] (some "run2")).2.1,
   (idempotent_reexport [] [mkRow "sensor.a" 0 1, mkRow "sensor.a" 0 5] (some "run2")).2.2
     (by decide)⟩

/-- Mapping a key-preserving function over a table commutes with the key
search. -/
theorem find_row_map_preserve {k : MergeKey} (f : MergeRow → MergeRow)
    (hf : ∀ t, keyOf (f t) = keyOf t) (l : List MergeRow) :
    (l.map f).find? (fun x => decide (keyOf x = k))
      = (l.find? (fun x => decide (keyOf x = k))).map f := by
  induction l with
  | nil => rfl
  | cons a l ih =>
    by_cases ha : keyOf a = k
    · rw [List.map_cons, List.find?_cons_of_pos _ (by simp [hf, ha]),
        List.find?_cons_of_pos _ (by simp [ha])]
      rfl
    · rw [List.map_cons, List.find?_cons_of_neg _ (by simp [hf, ha]),
        List.find?_cons_of_neg _ (by simp [ha])]
      exact ih

/-- A hit in the first part of an append is the hit of the whole. -/
theorem find?_append_some {α : Type} {p : α → Bool} {l1 l2 : List α} {x : α}
    (h : l1.find? p = some x) : (l1 ++ l2).find? p = some x := by
  induction l1 with
  | nil => simp [List.find?] at h
  | cons a l ih =>
    cases hpa : p a with
    | true =>
      rw [List.find?_cons_of_pos _ hpa] at h
      rw [List.cons_append, List.find?_cons_of_pos _ hpa]
      exact h
    | false =>
      rw [List.find?_cons_of_neg _ (by simp [hpa])] at h
      rw [List.cons_append, List.find?_cons_of_neg _ (by simp [hpa])]
      exact ih h

/-- A miss in the first part of an append defers to the second part. -/
theorem find?_append_none {α : Type} {p : α → Bool} {l1 l2 : List α}
    (h : l1.find? p = none) : (l1 ++ l2).find? p = l2.find? p := by
  induction l1 with
  | nil => rfl
  | cons a l ih =>
    cases hpa : p a with
    | true =>
      rw [List.find?_cons_of_pos _ hpa] at h
      exact absurd h (by simp)
    | false =>
      rw [List.find?_cons_of_neg _ (by simp [hpa])] at h
      rw [List.cons_append, List.find?_cons_of_neg _ (by simp [hpa])]
      exact ih h

/-- C2: when a batch holds two rows with the same key and different
`last_updated`, the deduplicated source keeps a row at least as new as
the later one (and strictly newer than the earlier one), and the
destination row for that key is built from that winner — inserted
verbatim when the key is new, or updating the matched row's derived
columns when the key already exists. -/
theorem merge_tie_break :
    ∀ (T B : List MergeRow) (r1 r2 : MergeRow),
      r1 ∈ B → r2 ∈ B → keyOf r1 = keyOf r2 → r1.last_updated < r2.last_updated →
      ∃ w, find_row (keyOf r1) (dedup_source B) = some w
        ∧ w ∈ B ∧ keyOf w = keyOf r1
        ∧ (∀ r ∈ B, keyOf r = keyOf r1 → r.last_updated ≤ w.last_updated)
        ∧ r2.last_updated ≤ w.last_updated
        ∧ r1.last_updated < w.last_updated
        ∧ (find_row (keyOf r1) T = none →
            find_row (keyOf r1) (merge_into T B) = some w)
        ∧ (∀ t, find_row (keyOf r1) T = some t →
            find_row (keyOf r1) (merge_into T B) = some (apply_update t w)) := by
  intro T B r1 r2 h1 h2 hk hlu
  have hkmem : keyOf r1 ∈ B.map keyOf := List.mem_map_of_mem _ h1
  obtain ⟨w, hwin, hfind, hwk⟩ := find_row_dedup_source hkmem
  have hwmax := (winner_spec _ _ hwin).2
  have hmax : ∀ r ∈ B, keyOf r = keyOf r1 → r.last_updated ≤ w.last_updated := by
    intro r hr hkr
    exact hwmax r (List.mem_filter.mpr ⟨hr, by simp [hkr]⟩)
  have hr2 : r2.last_updated ≤ w.last_updated := hmax r2 h2 hk.symm
  have hwB : w ∈ B := rows_for_key_subset _ _ _ (winner_spec _ _ hwin).1
  have hwsrc : w ∈ dedup_source B := winner_mem_dedup_source hkmem hwin
  refine ⟨w, hfind, hwB, hwk, hmax, hr2, lt_of_lt_of_le hlu hr2, ?_, ?_⟩
  · intro hTnone
    unfold find_row at hTnone ⊢
    show ((T.map (merge_map_row (dedup_source B))
        ++ merge_inserted T (dedup_source B)).find?
          fun x => decide (keyOf x = keyOf r1)) = some w
    rw [find?_append_none (by
      rw [find_row_map_preserve (merge_map_row (dedup_source B))
        (keyOf_merge_map_row _) T, hTnone]
      rfl)]
    have hTfalse : T.any (fun t => decide (keyOf t = keyOf w)) = false := by
      rw [List.any_eq_false]
      intro t ht
      have h := List.find?_eq_none.mp hTnone t ht
      simp only [decide_eq_true_eq] at h ⊢
      rw [hwk]
      exact h
    have hwins : w ∈ merge_inserted T (dedup_source B) :=
      List.mem_filter.mpr ⟨hwsrc, by simp [hTfalse]⟩
    have hnd : keys_nodup (merge_inserted T (dedup_source B)) :=
      keys_nodup_merge_inserted (keys_nodup_dedup_source B)
    exact find_by_key_nodup hnd hwins hwk
  · intro t hTt
    unfold find_row at hTt ⊢
    show ((T.map (merge_map_row (dedup_source B))
        ++ merge_inserted T (dedup_source B)).find?
          fun x => decide (keyOf x = keyOf r1)) = some (apply_update t w)
    apply find?_append_some
    rw [find_row_map_preserve (merge_map_row (dedup_source B))
      (keyOf_merge_map_row _) T, hTt]
    have hkt : keyOf t = keyOf r1 := by simpa using List.find?_some hTt
    have hfw : (dedup_source B).find? (fun s => decide (keyOf s = keyOf t)) = some w := by
      rw [hkt]
      exact hfind
    have hmap : Option.map (merge_map_row (dedup_source B)) (some t)
        = some (merge_map_row (dedup_source B) t) := rfl
    rw [hmap, merge_map_row_eq_of_find hfw]

/-- C2 witness: in the batch `{(sensor.a, 0, lu=1), (sensor.a, 0, lu=5)}`
merged into a target already holding the key, the later row wins. -/
theorem merge_tie_break_witness :
    ∃ w, find_row (keyOf (mkRow "sensor.a" 0 1))
          (dedup_source [mkRow "sensor.a" 0 1, mkRow "sensor.a" 0 5]) = some w
      ∧ w ∈ [mkRow "sensor.a" 0 1, mkRow "sensor.a" 0 5]
      ∧ keyOf w = keyOf (mkRow "sensor.a" 0 1)
      ∧ (∀ r ∈ [mkRow "sensor.a" 0 1, mkRow "sensor.a" 0 5],
          keyOf r = keyOf (mkRow "sensor.a" 0 1) → r.last_updated ≤ w.last_updated)
      ∧ (mkRow "sensor.a" 0 5).last_updated ≤ w.last_updated
      ∧ (mkRow "sensor.a" 0 1).last_updated < w.last_updated
      ∧ (find_row (keyOf (mkRow "sensor.a" 0 1)) [mkRow "sensor.a" 0 9] = none →
          find_row (keyOf (mkRow "sensor.a" 0 1))
            (merge_into [mkRow "sensor.a" 0 9]
              [mkRow "sensor.a" 0 1, mkRow "sensor.a" 0 5]) = some w)
      ∧ (∀ t, find_row (keyOf (mkRow "sensor.a" 0 1)) [mkRow "sensor.a" 0 9] = some t →
          find_row (keyOf (mkRow "sensor.a" 0 1))
            (merge_into [mkRow "sensor.a" 0 9]
              [mkRow "sensor.a" 0 1, mkRow "sensor.a" 0 5])
            = some (apply_update t w)) :=
  merge_tie_break [mkRow "sensor.a" 0 9]
    [mkRow "sensor.a" 0 1, mkRow "sensor.a" 0 5]
    (mkRow "sensor.a" 0 1) (mkRow "sensor.a" 0 5)
    (by decide) (by decide) (by decide) (by decide)

end BigQueryExport
